import Mathlib

/-!
Verification of the instruction-scheduling dependency-graph builder of
`llvm/lib/CodeGen/ScheduleDAGInstrs.h` against its specification.

The first part embeds the `LoopDependencies` analyzer: its `Deps` member is a
`std::map<unsigned, std::pair<const MachineOperand *, unsigned>>`, modelled
here as an association list whose `mapInsert` keeps an existing entry for a
key (the semantics of `std::map::insert`), and whose `mapFind` returns the
unique entry for a key.
-/

/-- A machine operand, keeping exactly the fields `VisitRegion` consults:
`MO.isReg()`, `MO.isUse()` and `MO.getReg()`. -/
structure MachineOperand where
  isReg : Bool
  isUse : Bool
  reg : Nat
deriving DecidableEq

/-- A machine instruction: its debug-value flag and its operand list. -/
structure MachineInstr where
  isDebugValue : Bool
  operands : List MachineOperand
deriving DecidableEq

/-- A machine basic block: a numeric identity, its instruction list in
program order, and its live-in register list (consulted for the header). -/
structure MachineBasicBlock where
  bbid : Nat
  insts : List MachineInstr
  liveIns : List Nat
deriving DecidableEq

mutual
/-- A node of the machine dominator tree: its block and its children. -/
inductive MachineDomTreeNode where
  | mk (block : MachineBasicBlock) (children : MachineDomForest)

/-- The list of children of a dominator-tree node. -/
inductive MachineDomForest where
  | nil
  | cons (c : MachineDomTreeNode) (rest : MachineDomForest)
end

/-- The block of a dominator-tree node (`Node->getBlock()`). -/
def MachineDomTreeNode.getBlock : MachineDomTreeNode → MachineBasicBlock
  | .mk b _ => b

/-- A machine loop: its header block and the identities of the blocks it
contains (`Loop->contains(MBB)` is membership of `MBB` in that list). -/
structure MachineLoop where
  header : MachineBasicBlock
  blocks : List Nat

/-- The dominator tree, exposing `getNode` keyed by block identity. -/
structure MachineDominatorTree where
  getNode : Nat → MachineDomTreeNode

/-- The `LoopDeps` map type: register number to (operand, position). -/
abbrev LoopDeps := List (Nat × (MachineOperand × Nat))

/-- Whether the `std::map` already holds key `k`. -/
def hasKey (m : LoopDeps) (k : Nat) : Bool :=
  m.any (fun p => p.1 = k)

/-- `std::map::insert`: a no-op when the key is already present, otherwise
the new entry is added. -/
def mapInsert (m : LoopDeps) (k : Nat) (v : MachineOperand × Nat) : LoopDeps :=
  if hasKey m k then m else m ++ [(k, v)]

/-- Lookup of the entry for key `k` in the `std::map`. -/
def mapFind (m : LoopDeps) (k : Nat) : Option (MachineOperand × Nat) :=
  (m.find? (fun p => p.1 = k)).map Prod.snd

/-- The instruction scan of one block inside `LoopDependencies::VisitRegion`:
debug values are skipped entirely; for a real instruction every operand that
is a register use of a register in `LoopLiveIns` is inserted into `Deps`
with the current `Count`, and `Count` is incremented once afterwards. -/
def scanBlock (liveIns : List Nat) : List MachineInstr → Nat → LoopDeps → LoopDeps
  | [], _, deps => deps
  | mi :: rest, count, deps =>
    if mi.isDebugValue then
      scanBlock liveIns rest count deps
    else
      scanBlock liveIns rest (count + 1)
        (mi.operands.foldl
          (fun d mo =>
            if mo.isReg && mo.isUse && liveIns.contains mo.reg then
              mapInsert d mo.reg (mo, count)
            else d)
          deps)

mutual
/-- `LoopDependencies::VisitRegion`: scan the node's block, then recurse into
every dominator-tree child whose block the loop contains. -/
def VisitRegion (liveIns : List Nat) (loop : MachineLoop) :
    MachineDomTreeNode → LoopDeps → LoopDeps
  | .mk mbb children, deps =>
    visitChildren liveIns loop children (scanBlock liveIns mbb.insts 0 deps)
termination_by structural n _ => n

/-- The child loop at the end of `LoopDependencies::VisitRegion`. -/
def visitChildren (liveIns : List Nat) (loop : MachineLoop) :
    MachineDomForest → LoopDeps → LoopDeps
  | .nil, deps => deps
  | .cons c rest, deps =>
    visitChildren liveIns loop rest
      (if loop.blocks.contains c.getBlock.bbid then
        VisitRegion liveIns loop c deps
      else deps)
termination_by structural f _ => f
end

/-- `LoopDependencies::VisitLoop`: asserts `Deps.empty()` (modelled as
`none` on violation, the fatal-assertion outcome), collects the header's
live-ins, asserts that the dominator-tree node of the header resolves to a
block the loop contains, and then calls `VisitRegion` from that node. -/
def VisitLoop (mdt : MachineDominatorTree) (loop : MachineLoop)
    (deps : LoopDeps) : Option LoopDeps :=
  if deps.isEmpty = false then none
  else if loop.blocks.contains (mdt.getNode loop.header.bbid).getBlock.bbid = false then
    none
  else some (VisitRegion loop.header.liveIns loop (mdt.getNode loop.header.bbid) deps)

/-- The operands of one instruction that the block scan can record: register
uses whose register is in the header's live-in set. -/
def instLiveUses (liveIns : List Nat) (mi : MachineInstr) : List MachineOperand :=
  mi.operands.filter (fun mo => mo.isReg && mo.isUse && liveIns.contains mo.reg)

/-- Folding one recorded candidate `(register, operand, position)` into the
`Deps` map with `std::map::insert` semantics. -/
def depStep (d : LoopDeps) (t : Nat × MachineOperand × Nat) : LoopDeps :=
  mapInsert d t.1 t.2

/-- The candidates `(register, operand, position)` produced while scanning a
block, in scan order, with the position counter starting at `count`. -/
def blockUses (liveIns : List Nat) :
    List MachineInstr → Nat → List (Nat × MachineOperand × Nat)
  | [], _ => []
  | mi :: rest, count =>
    if mi.isDebugValue then blockUses liveIns rest count
    else
      (instLiveUses liveIns mi).map (fun mo => (mo.reg, (mo, count))) ++
        blockUses liveIns rest (count + 1)

mutual
/-- All candidates recorded by `VisitRegion`, in traversal order. -/
def regionUses (liveIns : List Nat) (loop : MachineLoop) :
    MachineDomTreeNode → List (Nat × MachineOperand × Nat)
  | .mk mbb children =>
    blockUses liveIns mbb.insts 0 ++ regionUsesChildren liveIns loop children
termination_by structural n => n

/-- The candidates recorded while visiting a child list, in traversal order. -/
def regionUsesChildren (liveIns : List Nat) (loop : MachineLoop) :
    MachineDomForest → List (Nat × MachineOperand × Nat)
  | .nil => []
  | .cons c rest =>
    (if loop.blocks.contains c.getBlock.bbid then regionUses liveIns loop c else []) ++
      regionUsesChildren liveIns loop rest
termination_by structural f => f
end

mutual
/-- The blocks visited by `VisitRegion`, in traversal order. -/
def reachedBlocks (loop : MachineLoop) :
    MachineDomTreeNode → List MachineBasicBlock
  | .mk mbb children => mbb :: reachedChildren loop children
termination_by structural n => n

/-- The blocks visited while recursing into a child list. -/
def reachedChildren (loop : MachineLoop) : MachineDomForest → List MachineBasicBlock
  | .nil => []
  | .cons c rest =>
    (if loop.blocks.contains c.getBlock.bbid then reachedBlocks loop c else []) ++
      reachedChildren loop rest
termination_by structural f => f
end

/-- Whether a non-debug instruction has a register-use operand of `r`. -/
def instUsesReg (r : Nat) (mi : MachineInstr) : Bool :=
  !mi.isDebugValue && mi.operands.any (fun mo => mo.isReg && mo.isUse && mo.reg = r)

theorem foldl_filter_guard {α β : Type} (p : α → Bool) (f : β → α → β) :
    ∀ (l : List α) (b : β),
      (l.filter p).foldl f b = l.foldl (fun d a => if p a then f d a else d) b
  | [], _ => rfl
  | a :: l, b => by
    by_cases h : p a <;>
      simp [List.filter_cons, h, foldl_filter_guard p f l]

theorem scanBlock_eq (liveIns : List Nat) :
    ∀ (insts : List MachineInstr) (count : Nat) (deps : LoopDeps),
      scanBlock liveIns insts count deps =
        (blockUses liveIns insts count).foldl depStep deps
  | [], _, _ => rfl
  | mi :: rest, count, deps => by
    by_cases h : mi.isDebugValue
    · simp [scanBlock, blockUses, h, scanBlock_eq liveIns rest]
    · simp only [scanBlock, blockUses, h, if_neg, Bool.false_eq_true, ite_false,
        List.foldl_append, List.foldl_map, scanBlock_eq liveIns rest]
      congr 1
      rw [instLiveUses, foldl_filter_guard]
      rfl

mutual
theorem visitRegion_eq (liveIns : List Nat) (loop : MachineLoop) :
    ∀ (n : MachineDomTreeNode) (deps : LoopDeps),
      VisitRegion liveIns loop n deps = (regionUses liveIns loop n).foldl depStep deps
  | .mk mbb children, deps => by
    simp only [VisitRegion, regionUses, List.foldl_append, scanBlock_eq,
      visitChildren_eq liveIns loop children]
termination_by structural n => n

theorem visitChildren_eq (liveIns : List Nat) (loop : MachineLoop) :
    ∀ (f : MachineDomForest) (deps : LoopDeps),
      visitChildren liveIns loop f deps =
        (regionUsesChildren liveIns loop f).foldl depStep deps
  | .nil, _ => rfl
  | .cons c rest, deps => by
    simp only [visitChildren, regionUsesChildren, List.foldl_append,
      visitChildren_eq liveIns loop rest]
    by_cases h : c.getBlock.bbid ∈ loop.blocks
    · simp [h, visitRegion_eq liveIns loop c]
    · simp [h]
termination_by structural f => f
end

theorem hasKey_iff_isSome (m : LoopDeps) (k : Nat) :
    hasKey m k = true ↔ (mapFind m k).isSome = true := by
  simp [hasKey, mapFind, List.any_eq_true, Option.isSome_map, List.find?_isSome]

theorem mapFind_eq_none_of_not_hasKey {m : LoopDeps} {k : Nat}
    (h : hasKey m k = false) : mapFind m k = none := by
  cases hm : mapFind m k with
  | none => rfl
  | some v =>
    have : hasKey m k = true := by
      rw [hasKey_iff_isSome, hm]
      rfl
    rw [this] at h
    cases h

theorem hasKey_append_one (m : LoopDeps) (k k' : Nat) (v : MachineOperand × Nat) :
    hasKey (m ++ [(k', v)]) k = (hasKey m k || decide (k' = k)) := by
  simp [hasKey, List.any_append]

theorem mapFind_append_one_of_not_hasKey {m : LoopDeps} {k : Nat}
    (v : MachineOperand × Nat) (h : hasKey m k = false) :
    mapFind (m ++ [(k, v)]) k = some v := by
  have hf : m.find? (fun p => p.1 = k) = none := by
    have := mapFind_eq_none_of_not_hasKey h
    simpa [mapFind] using this
  simp [mapFind, List.find?_append, hf]

theorem mapFind_append_one_ne {m : LoopDeps} {k k' : Nat}
    (v : MachineOperand × Nat) (h : k' ≠ k) :
    mapFind (m ++ [(k', v)]) k = mapFind m k := by
  simp [mapFind, List.find?_append, List.find?_cons, h]

theorem mapFind_foldl (k : Nat) :
    ∀ (l : List (Nat × MachineOperand × Nat)) (deps : LoopDeps),
      mapFind (l.foldl depStep deps) k =
        if hasKey deps k then mapFind deps k
        else (l.find? (fun t => t.1 = k)).map (fun t => t.2)
  | [], deps => by
    by_cases h : hasKey deps k
    · simp [h]
    · simp only [h, if_neg, Bool.false_eq_true, ite_false, List.find?_nil,
        Option.map_none']
      exact mapFind_eq_none_of_not_hasKey (by simpa using h)
  | t :: l, deps => by
    have ih := mapFind_foldl k l (depStep deps t)
    rw [List.foldl_cons, ih]
    by_cases hk : t.1 = k
    · by_cases hd : hasKey deps k
      · have hins : depStep deps t = deps := by
          simp [depStep, mapInsert, hk, hd]
        rw [hins, if_pos hd, if_pos hd]
      · have hins : depStep deps t = deps ++ [(k, t.2)] := by
          simp [depStep, mapInsert, hk, hd]
        have hkey : hasKey (deps ++ [(k, t.2)]) k = true := by
          simp [hasKey_append_one, hd]
        rw [hins, if_pos hkey, if_neg (by simp [hd]),
          mapFind_append_one_of_not_hasKey _ (by simpa using hd)]
        simp [List.find?_cons, hk]
    · have hfind : (t :: l).find? (fun t => t.1 = k) = l.find? (fun t => t.1 = k) := by
        simp [List.find?_cons, hk]
      by_cases hd' : hasKey deps t.1
      · have hins : depStep deps t = deps := by
          simp [depStep, mapInsert, hd']
        rw [hins, hfind]
      · have hins : depStep deps t = deps ++ [(t.1, t.2)] := by
          simp [depStep, mapInsert, hd']
        have hkey : hasKey (deps ++ [(t.1, t.2)]) k = hasKey deps k := by
          simp [hasKey, List.any_append, hk]
        rw [hins, hkey, hfind, mapFind_append_one_ne _ hk]

theorem visitLoop_eq (mdt : MachineDominatorTree) (loop : MachineLoop)
    (deps' : LoopDeps) (h : VisitLoop mdt loop [] = some deps') :
    deps' =
      (regionUses loop.header.liveIns loop (mdt.getNode loop.header.bbid)).foldl
        depStep [] ∧
    loop.blocks.contains (mdt.getNode loop.header.bbid).getBlock.bbid = true := by
  rw [VisitLoop, if_neg (by simp)] at h
  by_cases hc : loop.blocks.contains (mdt.getNode loop.header.bbid).getBlock.bbid = false
  · rw [if_pos hc] at h
    cases h
  · have hc' : loop.blocks.contains (mdt.getNode loop.header.bbid).getBlock.bbid = true := by
      revert hc
      cases loop.blocks.contains (mdt.getNode loop.header.bbid).getBlock.bbid <;> simp
    refine ⟨?_, hc'⟩
    rw [if_neg hc] at h
    rw [← visitRegion_eq]
    exact (Option.some.inj h).symm

/-- Example loop used to exercise the `LoopDependencies` theorems: the
header (block 0) is live-in for register 5 and uses register 5 in each of
its two real instructions, at positions 0 and 1. -/
def exLoopBlock : MachineBasicBlock :=
  ⟨0, [⟨false, [⟨true, true, 5⟩]⟩, ⟨false, [⟨true, true, 5⟩]⟩], [5]⟩

/-- Dominator tree of the example loop: the header is the only node. -/
def exLoopMdt : MachineDominatorTree := ⟨fun _ => .mk exLoopBlock .nil⟩

/-- The example loop itself: it contains only block 0. -/
def exLoop : MachineLoop := ⟨exLoopBlock, [0]⟩

/-- C1 counterexample: in `exLoop` the loop-live-in register 5 is used by two
real instructions, at positions 0 and 1, so the last use in traversal order
is the one at position 1; yet after `VisitLoop` the `Deps` map holds the
pair with position 0, because `std::map::insert` keeps an existing entry
instead of overwriting it. -/
theorem visitLoop_last_use_counterexample :
    VisitLoop exLoopMdt exLoop [] = some [(5, (⟨true, true, 5⟩, 0))] ∧
    mapFind [(5, (⟨true, true, 5⟩, 0))] 5 ≠ some (⟨true, true, 5⟩, 1) := by
  decide

/-- C1 (amended): for every analyzed loop, the `Deps` entry of each register
is the `(operand, position)` pair of the FIRST use of that register
encountered in traversal order (`regionUses` lists the qualifying uses in
traversal order, and `List.find?` takes the first); a later occurrence never
overwrites an earlier recorded occurrence. -/
theorem visitLoop_deps_first_use (mdt : MachineDominatorTree) (loop : MachineLoop)
    (deps' : LoopDeps) (h : VisitLoop mdt loop [] = some deps') (r : Nat) :
    mapFind deps' r =
      ((regionUses loop.header.liveIns loop (mdt.getNode loop.header.bbid)).find?
          (fun t => t.1 = r)).map (fun t => t.2) := by
  obtain ⟨hd, -⟩ := visitLoop_eq mdt loop deps' h
  rw [hd, mapFind_foldl]
  simp [hasKey]

/-- Witness for C1: on the example loop the hypothesis of
`visitLoop_deps_first_use` holds and the conclusion evaluates: register 5 is
mapped to the use at position 0, the first in traversal order. -/
theorem visitLoop_deps_first_use_witness :
    mapFind [(5, (⟨true, true, 5⟩, 0))] 5 =
      ((regionUses exLoop.header.liveIns exLoop
            (exLoopMdt.getNode exLoop.header.bbid)).find?
          (fun t => t.1 = 5)).map (fun t => t.2) :=
  visitLoop_deps_first_use exLoopMdt exLoop [(5, (⟨true, true, 5⟩, 0))] (by decide) 5

/-- C7: the internal-consistency assertion of `VisitLoop` is unreachable
whenever the dominator tree resolves the loop header to a block the loop
contains (the analysis completes and returns a result), and when that
collaborator contract is violated the analysis aborts fatally (modelled by
`none`) instead of returning a partial result. -/
theorem visitLoop_header_assertion (mdt : MachineDominatorTree) (loop : MachineLoop) :
    (loop.blocks.contains (mdt.getNode loop.header.bbid).getBlock.bbid = true →
      VisitLoop mdt loop [] =
        some (VisitRegion loop.header.liveIns loop (mdt.getNode loop.header.bbid) [])) ∧
    (loop.blocks.contains (mdt.getNode loop.header.bbid).getBlock.bbid = false →
      VisitLoop mdt loop [] = none) := by
  constructor
  · intro hc
    rw [VisitLoop, if_neg (by simp), if_neg (by rw [hc]; simp)]
  · intro hc
    rw [VisitLoop, if_neg (by simp), if_pos hc]

/-- Witness for C7: on the example loop the header's dominator-tree node is
contained in the loop, so the assertion passes and the analysis completes;
on a loop whose block list is empty the same header fails the containment
assertion and the analysis aborts. -/
theorem visitLoop_header_assertion_witness :
    VisitLoop exLoopMdt exLoop [] =
      some (VisitRegion exLoop.header.liveIns exLoop
        (exLoopMdt.getNode exLoop.header.bbid) []) ∧
    VisitLoop exLoopMdt ⟨exLoopBlock, []⟩ [] = none :=
  ⟨(visitLoop_header_assertion exLoopMdt exLoop).1 (by decide),
   (visitLoop_header_assertion exLoopMdt ⟨exLoopBlock, []⟩).2 (by decide)⟩

/-- C9: `VisitLoop` requires `Deps` to be empty on entry and aborts via its
fatal assertion (modelled by `none`) otherwise, instead of clearing the map
itself; in particular a second `VisitLoop` call made after a first call that
recorded at least one dependency, without the caller clearing `Deps` in
between, aborts rather than reanalyzing the new loop. -/
theorem visitLoop_requires_empty_deps (mdt mdt2 : MachineDominatorTree)
    (loop loop2 : MachineLoop) (deps deps' : LoopDeps) :
    (deps ≠ [] → VisitLoop mdt loop deps = none) ∧
    (VisitLoop mdt loop [] = some deps' → deps' ≠ [] →
      VisitLoop mdt2 loop2 deps' = none) := by
  have habort : ∀ (m : MachineDominatorTree) (l : MachineLoop) (d : LoopDeps),
      d ≠ [] → VisitLoop m l d = none := by
    intro m l d hd
    rw [VisitLoop]
    cases d with
    | nil => exact absurd rfl hd
    | cons a d => simp
  exact ⟨habort mdt loop deps, fun _ h2 => habort mdt2 loop2 deps' h2⟩

/-- Witness for C9: the example loop records a dependency for register 5, so
its result map is nonempty and a second `VisitLoop` call on the stale map
aborts; a direct call on a nonempty map aborts as well. -/
theorem visitLoop_requires_empty_deps_witness :
    VisitLoop exLoopMdt exLoop [(5, (⟨true, true, 5⟩, 0))] = none ∧
    VisitLoop exLoopMdt exLoop [(5, (⟨true, true, 5⟩, 0))] = none :=
  ⟨(visitLoop_requires_empty_deps exLoopMdt exLoopMdt exLoop exLoop
      [(5, (⟨true, true, 5⟩, 0))] []).1 (by decide),
   (visitLoop_requires_empty_deps exLoopMdt exLoopMdt exLoop exLoop []
      [(5, (⟨true, true, 5⟩, 0))]).2 (by decide) (by decide)⟩

theorem instLiveUses_any_reg (liveIns : List Nat) (r : Nat) (mi : MachineInstr)
    (count : Nat) (h : mi.isDebugValue = false) :
    (((instLiveUses liveIns mi).map (fun mo => (mo.reg, (mo, count)))).any
        (fun t => t.1 = r) = true ↔
      (liveIns.contains r = true ∧ instUsesReg r mi = true)) := by
  constructor
  · intro hl
    simp only [List.any_eq_true, List.mem_map, instLiveUses, List.mem_filter,
      Bool.and_eq_true, decide_eq_true_eq] at hl
    obtain ⟨t, ⟨mo, ⟨hmem, ⟨⟨hreg, huse⟩, hcont⟩⟩, rfl⟩, hr⟩ := hl
    refine ⟨by rw [← hr]; exact hcont, ?_⟩
    simp only [instUsesReg, h, Bool.not_false, Bool.true_and, List.any_eq_true]
    exact ⟨mo, hmem, by simp only [hreg, huse, Bool.true_and, decide_eq_true_eq]; exact hr⟩
  · rintro ⟨hcont, huses⟩
    simp only [instUsesReg, h, Bool.not_false, Bool.true_and, List.any_eq_true,
      Bool.and_eq_true, decide_eq_true_eq] at huses
    obtain ⟨mo, hmem, ⟨hreg, huse⟩, hr⟩ := huses
    simp only [List.any_eq_true, List.mem_map, instLiveUses, List.mem_filter]
    refine ⟨(mo.reg, (mo, count)), ⟨mo, ⟨hmem, ?_⟩, rfl⟩, by simp [hr]⟩
    simp only [Bool.and_eq_true]
    exact ⟨⟨hreg, huse⟩, by rw [hr]; exact hcont⟩

theorem blockUses_any_iff (liveIns : List Nat) (r : Nat) :
    ∀ (insts : List MachineInstr) (count : Nat),
      ((blockUses liveIns insts count).any (fun t => t.1 = r) = true ↔
        (liveIns.contains r = true ∧ insts.any (instUsesReg r) = true))
  | [], _ => by simp [blockUses]
  | mi :: rest, count => by
    by_cases h : mi.isDebugValue
    · rw [blockUses, if_pos h, blockUses_any_iff liveIns r rest count]
      simp [List.any_cons, instUsesReg, h]
    · have hf : mi.isDebugValue = false := by simpa using h
      rw [blockUses, if_neg h]
      simp only [List.any_append, List.any_cons, Bool.or_eq_true,
        blockUses_any_iff liveIns r rest (count + 1),
        instLiveUses_any_reg liveIns r mi count hf]
      tauto

mutual
theorem regionUses_any_iff (liveIns : List Nat) (loop : MachineLoop) (r : Nat) :
    ∀ (n : MachineDomTreeNode),
      ((regionUses liveIns loop n).any (fun t => t.1 = r) = true ↔
        (liveIns.contains r = true ∧
          ∃ mbb ∈ reachedBlocks loop n, mbb.insts.any (instUsesReg r) = true))
  | .mk mbb children => by
    rw [regionUses, reachedBlocks]
    simp only [List.any_append, Bool.or_eq_true, blockUses_any_iff liveIns r,
      regionUsesChildren_any_iff liveIns loop r children, List.mem_cons]
    constructor
    · rintro (⟨hl, hb⟩ | ⟨hl, b, hmem, hb⟩)
      · exact ⟨hl, mbb, Or.inl rfl, hb⟩
      · exact ⟨hl, b, Or.inr hmem, hb⟩
    · rintro ⟨hl, b, (rfl | hmem), hb⟩
      · exact Or.inl ⟨hl, hb⟩
      · exact Or.inr ⟨hl, b, hmem, hb⟩
termination_by structural n => n

theorem regionUsesChildren_any_iff (liveIns : List Nat) (loop : MachineLoop) (r : Nat) :
    ∀ (f : MachineDomForest),
      ((regionUsesChildren liveIns loop f).any (fun t => t.1 = r) = true ↔
        (liveIns.contains r = true ∧
          ∃ mbb ∈ reachedChildren loop f, mbb.insts.any (instUsesReg r) = true))
  | .nil => by simp [regionUsesChildren, reachedChildren]
  | .cons c rest => by
    rw [regionUsesChildren, reachedChildren]
    by_cases h : loop.blocks.contains c.getBlock.bbid
    · rw [if_pos h, if_pos h]
      simp only [List.any_append, Bool.or_eq_true, regionUses_any_iff liveIns loop r c,
        regionUsesChildren_any_iff liveIns loop r rest, List.mem_append]
      constructor
      · rintro (⟨hl, b, hmem, hb⟩ | ⟨hl, b, hmem, hb⟩)
        · exact ⟨hl, b, Or.inl hmem, hb⟩
        · exact ⟨hl, b, Or.inr hmem, hb⟩
      · rintro ⟨hl, b, hmem | hmem, hb⟩
        · exact Or.inl ⟨hl, b, hmem, hb⟩
        · exact Or.inr ⟨hl, b, hmem, hb⟩
    · rw [if_neg h, if_neg h]
      simp only [List.nil_append, regionUsesChildren_any_iff liveIns loop r rest]
termination_by structural f => f
end

mutual
theorem reachedBlocks_contained (loop : MachineLoop) :
    ∀ (n : MachineDomTreeNode),
      loop.blocks.contains n.getBlock.bbid = true →
      ∀ b ∈ reachedBlocks loop n, loop.blocks.contains b.bbid = true
  | .mk mbb children => by
    intro hroot b hb
    rw [reachedBlocks] at hb
    rcases List.mem_cons.mp hb with rfl | hb
    · exact hroot
    · exact reachedChildren_contained loop children b hb
termination_by structural n => n

theorem reachedChildren_contained (loop : MachineLoop) :
    ∀ (f : MachineDomForest),
      ∀ b ∈ reachedChildren loop f, loop.blocks.contains b.bbid = true
  | .nil => by simp [reachedChildren]
  | .cons c rest => by
    intro b hb
    rw [reachedChildren] at hb
    rcases List.mem_append.mp hb with hb | hb
    · by_cases h : loop.blocks.contains c.getBlock.bbid
      · rw [if_pos h] at hb
        exact reachedBlocks_contained loop c h b hb
      · rw [if_neg h] at hb
        cases hb
    · exact reachedChildren_contained loop rest b hb
termination_by structural f => f
end

/-- C3: after a successful `VisitLoop`, the `Deps` map has an entry for
register `r` exactly when `r` is in the header's live-in set and some
non-debug instruction of a block reached by the restricted dominator-tree
traversal — a block the loop contains — has a register-use operand of `r`;
no other register and no unreached block contributes an entry. -/
theorem visitLoop_deps_key_iff (mdt : MachineDominatorTree) (loop : MachineLoop)
    (deps' : LoopDeps) (h : VisitLoop mdt loop [] = some deps') (r : Nat) :
    hasKey deps' r = true ↔
      (loop.header.liveIns.contains r = true ∧
        ∃ mbb ∈ reachedBlocks loop (mdt.getNode loop.header.bbid),
          loop.blocks.contains mbb.bbid = true ∧
          mbb.insts.any (instUsesReg r) = true) := by
  obtain ⟨hd, hroot⟩ := visitLoop_eq mdt loop deps' h
  have hkey : hasKey deps' r = true ↔
      (regionUses loop.header.liveIns loop (mdt.getNode loop.header.bbid)).any
        (fun t => t.1 = r) = true := by
    rw [hd, hasKey_iff_isSome, mapFind_foldl]
    simp only [hasKey, List.any_nil, Bool.false_eq_true, if_false,
      Option.isSome_map', List.find?_isSome, List.any_eq_true]
  rw [hkey, regionUses_any_iff]
  constructor
  · rintro ⟨hl, b, hmem, hb⟩
    exact ⟨hl, b, hmem,
      reachedBlocks_contained loop (mdt.getNode loop.header.bbid) hroot b hmem, hb⟩
  · rintro ⟨hl, b, hmem, -, hb⟩
    exact ⟨hl, b, hmem, hb⟩

/-- Witness for C3: on the example loop, register 5 has an entry and the
right-hand side holds for it; both sides evaluate on the concrete result. -/
theorem visitLoop_deps_key_iff_witness :
    VisitLoop exLoopMdt exLoop [] = some [(5, (⟨true, true, 5⟩, 0))] ∧
    (hasKey [(5, (⟨true, true, 5⟩, 0))] 5 = true ↔
      (exLoop.header.liveIns.contains 5 = true ∧
        ∃ mbb ∈ reachedBlocks exLoop (exLoopMdt.getNode exLoop.header.bbid),
          exLoop.blocks.contains mbb.bbid = true ∧
          mbb.insts.any (instUsesReg 5) = true)) :=
  ⟨by decide,
   visitLoop_deps_key_iff exLoopMdt exLoop [(5, (⟨true, true, 5⟩, 0))] (by decide) 5⟩

theorem blockUses_enumFrom (liveIns : List Nat) :
    ∀ (insts : List MachineInstr) (count : Nat),
      blockUses liveIns insts count =
        ((insts.filter (fun mi => !mi.isDebugValue)).enumFrom count).flatMap
          (fun km => (instLiveUses liveIns km.2).map (fun mo => (mo.reg, (mo, km.1))))
  | [], _ => rfl
  | mi :: rest, count => by
    by_cases h : mi.isDebugValue
    · rw [blockUses, if_pos h, blockUses_enumFrom liveIns rest count]
      simp [List.filter_cons, h]
    · rw [blockUses, if_neg h, blockUses_enumFrom liveIns rest (count + 1)]
      simp [List.filter_cons, h, List.enumFrom_cons]

/-- C8: while scanning one block, debug-only instructions neither advance the
position counter nor contribute any recorded operand, and each real
instruction advances it exactly once after its operands are scanned: the
map update sequence is exactly the qualifying uses of the filtered (real)
instruction list, each tagged with its instruction's index `k` in that
filtered list (`List.enum` counts real instructions from zero). -/
theorem scanBlock_positions (liveIns : List Nat) (insts : List MachineInstr)
    (deps : LoopDeps) :
    scanBlock liveIns insts 0 deps =
      (((insts.filter (fun mi => !mi.isDebugValue)).enum).flatMap
          (fun km => (instLiveUses liveIns km.2).map
            (fun mo => (mo.reg, (mo, km.1))))).foldl depStep deps := by
  rw [scanBlock_eq, blockUses_enumFrom, List.enum_eq_enumFrom]

/-!
The `Reg2SUnitsMap` of `ScheduleDAGInstrs`: a `SparseSet` of populated
physical-register keys combined with a backing vector of per-register
`SUnit*` lists. The backing vector is modelled as a total function from
register number to node list and the populated key set as a list of keys;
nodes are identified by their indices.
-/

structure Reg2SUnitsMap where
  physRegSet : List Nat
  sunits : Nat → List Nat

/-- The well-formedness invariant the class maintains (and asserts inside
`operator[]`): an unpopulated register's backing slot is empty. -/
def Reg2SUnitsMap.WF (m : Reg2SUnitsMap) : Prop :=
  ∀ r, m.physRegSet.contains r = false → m.sunits r = []

/-- `Reg2SUnitsMap::operator[]`: insert the register into the populated set
(a no-op when already present) and return the backing list; the assertion
that a newly populated register's backing list is empty ("stale SUnits
vector") is modelled by returning `none` when it would fire. -/
def Reg2SUnitsMap.indexOp (m : Reg2SUnitsMap) (r : Nat) :
    Option (Reg2SUnitsMap × List Nat) :=
  if m.physRegSet.contains r then some (m, m.sunits r)
  else if (m.sunits r).isEmpty = false then none
  else some ({ m with physRegSet := m.physRegSet ++ [r] }, m.sunits r)

/-- Appending a node through the reference returned by `operator[]`
(`push_back` on the returned list), the way `BuildSchedGraph` records a
def or use. -/
def Reg2SUnitsMap.appendSU (m : Reg2SUnitsMap) (r : Nat) (su : Nat) :
    Option Reg2SUnitsMap :=
  match m.indexOp r with
  | none => none
  | some (m', l) =>
    some { m' with sunits := fun x => if x = r then l ++ [su] else m'.sunits x }

/-- `Reg2SUnitsMap::erase`: remove the key from the sparse set and clear
the backing slot, without freeing memory. -/
def Reg2SUnitsMap.eraseOp (m : Reg2SUnitsMap) (r : Nat) : Reg2SUnitsMap :=
  { physRegSet := m.physRegSet.filter (fun x => x ≠ r),
    sunits := fun x => if x = r then [] else m.sunits x }

/-- C4: on a well-formed map, `operator[]` on an unpopulated register
inserts it into the key set and returns the empty list; on a populated
register it returns the existing list and leaves the map unchanged;
appending a node through the returned reference preserves all previously
recorded nodes and their order; `erase` removes the key and leaves that
register's backing list empty. -/
theorem reg2SUnitsMap_index_semantics (m : Reg2SUnitsMap) (r su : Nat)
    (hwf : m.WF) :
    (m.physRegSet.contains r = false →
      m.indexOp r = some ({ m with physRegSet := m.physRegSet ++ [r] }, []) ∧
      ({ m with physRegSet := m.physRegSet ++ [r] } :
        Reg2SUnitsMap).physRegSet.contains r = true) ∧
    (m.physRegSet.contains r = true → m.indexOp r = some (m, m.sunits r)) ∧
    (∀ m'', m.appendSU r su = some m'' → m''.sunits r = m.sunits r ++ [su]) ∧
    ((m.eraseOp r).physRegSet.contains r = false ∧ (m.eraseOp r).sunits r = []) := by
  refine ⟨?_, ?_, ?_, ?_, ?_⟩
  · intro hc
    have hs : m.sunits r = [] := hwf r hc
    constructor
    · rw [Reg2SUnitsMap.indexOp, if_neg (by rw [hc]; simp), hs]
      simp
    · simp
  · intro hc
    rw [Reg2SUnitsMap.indexOp, if_pos hc]
  · intro m'' happ
    by_cases hc : m.physRegSet.contains r = true
    · rw [Reg2SUnitsMap.appendSU, Reg2SUnitsMap.indexOp, if_pos hc] at happ
      simp only [Option.some.injEq] at happ
      rw [← happ]
      simp
    · have hc' : m.physRegSet.contains r = false := by
        revert hc
        cases m.physRegSet.contains r <;> simp
      have hs : m.sunits r = [] := hwf r hc'
      rw [Reg2SUnitsMap.appendSU, Reg2SUnitsMap.indexOp,
        if_neg (by rw [hc']; simp), if_neg (by rw [hs]; simp)] at happ
      simp only [Option.some.injEq] at happ
      rw [← happ, hs]
      simp
  · simp [Reg2SUnitsMap.eraseOp, List.contains_eq_any_beq]
  · simp [Reg2SUnitsMap.eraseOp]

/-- Witness for C4: `operator[]`, append, and `erase` evaluated on the
concrete map with populated key 2 (empty backing), and `operator[]` on its
unpopulated key 3. -/
theorem reg2SUnitsMap_index_semantics_witness :
    ((Reg2SUnitsMap.mk [2] (fun _ => [])).indexOp 2 =
        some (Reg2SUnitsMap.mk [2] (fun _ => []), [])) ∧
    ((Reg2SUnitsMap.mk [2] (fun _ => [])).eraseOp 2).physRegSet.contains 2 = false ∧
    ((Reg2SUnitsMap.mk [2] (fun _ => [])).eraseOp 2).sunits 2 = [] ∧
    ((Reg2SUnitsMap.mk [2] (fun _ => [])).indexOp 3 =
        some (Reg2SUnitsMap.mk ([2] ++ [3]) (fun _ => []), [])) :=
  have h := reg2SUnitsMap_index_semantics (Reg2SUnitsMap.mk [2] (fun _ => [])) 2 9
    (fun _ _ => rfl)
  have h3 := reg2SUnitsMap_index_semantics (Reg2SUnitsMap.mk [2] (fun _ => [])) 3 9
    (fun _ _ => rfl)
  ⟨h.2.1 (by decide), h.2.2.2.1, h.2.2.2.2, (h3.1 (by decide)).1⟩

/-- Modelled from the spec: the body of `Reg2SUnitsMap::clear` is declared
in `ScheduleDAGInstrs.h` but defined outside the sampled sources; per the
spec it empties all entries in time proportional to the number of
currently-populated keys. It is modelled as a walk over the populated key
list that clears each key's backing slot, returning the new backing vector
together with the trace of slots it touched, in order. -/
def clearWithTrace : List Nat → (Nat → List Nat) → ((Nat → List Nat) × List Nat)
  | [], f => (f, [])
  | r :: rest, f =>
    let out := clearWithTrace rest (fun x => if x = r then [] else f x)
    (out.1, r :: out.2)

/-- `Reg2SUnitsMap::clear` with the trace of touched backing slots. -/
def Reg2SUnitsMap.clearOp (m : Reg2SUnitsMap) : Reg2SUnitsMap × List Nat :=
  ((⟨[], (clearWithTrace m.physRegSet m.sunits).1⟩ : Reg2SUnitsMap),
    (clearWithTrace m.physRegSet m.sunits).2)

theorem clearWithTrace_trace :
    ∀ (keys : List Nat) (f : Nat → List Nat), (clearWithTrace keys f).2 = keys
  | [], _ => rfl
  | r :: rest, f => by
    rw [clearWithTrace]
    simp [clearWithTrace_trace rest]

theorem clearWithTrace_untouched :
    ∀ (keys : List Nat) (f : Nat → List Nat) (r : Nat),
      r ∉ keys → (clearWithTrace keys f).1 r = f r
  | [], _, _ => fun _ => rfl
  | k :: rest, f, r => by
    intro hmem
    rw [clearWithTrace]
    have hr : r ∉ rest := fun hc => hmem (List.mem_cons_of_mem _ hc)
    have hk : r ≠ k := fun hc => hmem (hc ▸ List.mem_cons_self _ _)
    simp only [clearWithTrace_untouched rest _ r hr]
    simp [hk]

theorem clearWithTrace_cleared :
    ∀ (keys : List Nat) (f : Nat → List Nat) (r : Nat),
      r ∈ keys → (clearWithTrace keys f).1 r = []
  | [], _, _ => by simp
  | k :: rest, f, r => by
    intro hmem
    rw [clearWithTrace]
    by_cases hr : r ∈ rest
    · simp only [clearWithTrace_cleared rest _ r hr]
    · have hk : r = k := by
        rcases List.mem_cons.mp hmem with h | h
        · exact h
        · exact absurd h hr
      simp only [clearWithTrace_untouched rest _ r hr]
      simp [hk]

/-- C10: `clear` touches exactly the currently-populated keys (its trace of
touched backing slots is precisely `physRegSet`, so its cost is
proportional to the number of populated keys, not to the register-file
size), empties every populated entry and the key set, and leaves every
unpopulated backing slot untouched. -/
theorem reg2SUnitsMap_clear_semantics (m : Reg2SUnitsMap) :
    (m.clearOp.2 = m.physRegSet ∧ m.clearOp.1.physRegSet = []) ∧
    (∀ r, r ∈ m.physRegSet → m.clearOp.1.sunits r = []) ∧
    (∀ r, r ∉ m.physRegSet → m.clearOp.1.sunits r = m.sunits r) := by
  refine ⟨⟨?_, rfl⟩, ?_, ?_⟩
  · exact clearWithTrace_trace m.physRegSet m.sunits
  · exact fun r hr => clearWithTrace_cleared m.physRegSet m.sunits r hr
  · exact fun r hr => clearWithTrace_untouched m.physRegSet m.sunits r hr

/-- Witness for C10: clearing a map with populated keys 2 and 7 touches
exactly those two slots, clears slot 7, and leaves the unpopulated slot 3
untouched. -/
theorem reg2SUnitsMap_clear_semantics_witness :
    (Reg2SUnitsMap.mk [2, 7]
        (fun x => if x = 2 then [10] else if x = 7 then [11, 12] else [])).clearOp.2 =
      [2, 7] ∧
    (Reg2SUnitsMap.mk [2, 7]
        (fun x => if x = 2 then [10] else if x = 7 then [11, 12] else [])).clearOp.1.sunits
        7 = [] ∧
    (Reg2SUnitsMap.mk [2, 7]
        (fun x => if x = 2 then [10] else if x = 7 then [11, 12] else [])).clearOp.1.sunits
        3 = (Reg2SUnitsMap.mk [2, 7]
        (fun x => if x = 2 then [10] else if x = 7 then [11, 12] else [])).sunits 3 :=
  have h := reg2SUnitsMap_clear_semantics
    (Reg2SUnitsMap.mk [2, 7]
      (fun x => if x = 2 then [10] else if x = 7 then [11, 12] else []))
  ⟨h.1.1, h.2.1 7 (by decide), h.2.2 3 (by decide)⟩

/-!
`ScheduleDAGInstrs::NewSUnit`: pushes `SUnit(MI, SUnits.size())` onto the
`SUnits` vector (and asserts that the vector never reallocates within a
region, so existing nodes never move). The vector is modelled as a list of
nodes; instructions are identified by number.
-/

/-- A scheduling unit, keeping its instruction and its `NodeNum` index. -/
structure SUnit where
  instr : Nat
  nodeNum : Nat
deriving DecidableEq

/-- `ScheduleDAGInstrs::NewSUnit`: append a node whose index is the current
size of the `SUnits` vector. -/
def NewSUnit (sunits : List SUnit) (mi : Nat) : List SUnit :=
  sunits ++ [{ instr := mi, nodeNum := sunits.length }]

/-- The `SUnits` vector after creating one node per listed instruction in
order, starting from an empty region. -/
def buildSUnits (mis : List Nat) : List SUnit :=
  mis.foldl NewSUnit []


theorem buildSUnits_go_nodeNum :
    ∀ (mis : List Nat) (acc : List SUnit),
      (mis.foldl NewSUnit acc).map SUnit.nodeNum =
        acc.map SUnit.nodeNum ++ List.range' acc.length mis.length
  | [], acc => by simp
  | m :: mis, acc => by
    rw [List.foldl_cons, buildSUnits_go_nodeNum mis (NewSUnit acc m)]
    have hlen : (NewSUnit acc m).length = acc.length + 1 := by simp [NewSUnit]
    rw [hlen, NewSUnit]
    simp [List.range'_succ]

theorem buildSUnits_go_stable :
    ∀ (mis : List Nat) (acc : List SUnit),
      (mis.foldl NewSUnit acc).take acc.length = acc
  | [], acc => List.take_length acc
  | m :: mis, acc => by
    rw [List.foldl_cons]
    have ih := buildSUnits_go_stable mis (NewSUnit acc m)
    have hlen : (NewSUnit acc m).length = acc.length + 1 := by
      simp [NewSUnit]
    have h1 : (mis.foldl NewSUnit (NewSUnit acc m)).take acc.length =
        ((mis.foldl NewSUnit (NewSUnit acc m)).take (acc.length + 1)).take acc.length := by
      rw [List.take_take]
      congr 1
      omega
    rw [h1, ← hlen, ih, NewSUnit]
    simp

/-- C5: within one region the i-th created node receives index i, the
number of nodes created before it — the index sequence of the `SUnits`
vector is exactly `0, 1, 2, …`, so indices are unique and strictly
increasing in creation order — and nodes already created keep their place
and index when further nodes are created. -/
theorem newSUnit_indices (mis more : List Nat) :
    (buildSUnits mis).map SUnit.nodeNum = List.range mis.length ∧
    (buildSUnits (mis ++ more)).take (buildSUnits mis).length = buildSUnits mis := by
  constructor
  · rw [buildSUnits, buildSUnits_go_nodeNum mis [], List.range_eq_range']
    simp
  · have h : buildSUnits (mis ++ more) = more.foldl NewSUnit (buildSUnits mis) := by
      rw [buildSUnits, buildSUnits, List.foldl_append]
    rw [h]
    exact buildSUnits_go_stable more (buildSUnits mis)

/-!
The virtual-register def map `VRegDefs` of `ScheduleDAGInstrs`: a
`SparseSet<VReg2SUnit>` used as a map keyed by
`TargetRegisterInfo::virtReg2Index`. The sparse-set implementation and the
code that inserts defs are outside the sampled sources; per the spec the
map holds, per region, the single most recent defining node of each
virtual register, with at most one entry per virtual register.
`findVRegDef` is from the header: it looks up the register's index in
`VRegDefs`.
-/

/-- Modelled from the spec: `TargetRegisterInfo::virtReg2Index` (outside
the sampled sources) strips the virtual-register tag bit, so entries are
keyed by the virtual register's index. -/
def virtReg2Index (v : Nat) : Nat := v % 2 ^ 31

/-- The header's `VReg2SUnit` pair: a virtual register and its defining
node (nodes identified by index). -/
structure VReg2SUnit where
  virtReg : Nat
  su : Nat
deriving DecidableEq

/-- `VReg2SUnit::getSparseSetKey` from the header. -/
def VReg2SUnit.getSparseSetKey (x : VReg2SUnit) : Nat := virtReg2Index x.virtReg

/-- Modelled from the spec: recording a def in `VRegDefs` keeps a single
entry per key — the most recent def replaces any previous entry with the
same key. -/
def vregInsert (m : List VReg2SUnit) (x : VReg2SUnit) : List VReg2SUnit :=
  x :: m.filter (fun y => y.getSparseSetKey ≠ x.getSparseSetKey)

/-- The def map after a backward pass recording the given defs in order. -/
def buildVRegDefs (xs : List VReg2SUnit) : List VReg2SUnit :=
  xs.foldl vregInsert []

/-- `ScheduleDAGInstrs::findVRegDef`: look up the virtual register's index
in `VRegDefs`; `none` models the end iterator. -/
def findVRegDef (m : List VReg2SUnit) (v : Nat) : Option VReg2SUnit :=
  m.find? (fun y => y.getSparseSetKey = virtReg2Index v)

/-- The at-most-one-entry-per-key invariant of the def map. -/
def keysNodup (m : List VReg2SUnit) : Prop :=
  (m.map VReg2SUnit.getSparseSetKey).Nodup

theorem vregInsert_keysNodup (m : List VReg2SUnit) (x : VReg2SUnit)
    (h : keysNodup m) : keysNodup (vregInsert m x) := by
  unfold keysNodup vregInsert
  simp only [List.map_cons, List.nodup_cons]
  constructor
  · intro hc
    simp only [List.mem_map, List.mem_filter] at hc
    obtain ⟨y, ⟨-, hy⟩, hkey⟩ := hc
    simp only [decide_eq_true_eq, Bool.not_eq_true] at hy
    exact absurd hkey (by simpa using hy)
  · exact ((List.filter_sublist m).map VReg2SUnit.getSparseSetKey).nodup h

theorem buildVRegDefs_go_keysNodup :
    ∀ (xs : List VReg2SUnit) (acc : List VReg2SUnit),
      keysNodup acc → keysNodup (xs.foldl vregInsert acc)
  | [], _, h => h
  | x :: xs, acc, h => by
    rw [List.foldl_cons]
    exact buildVRegDefs_go_keysNodup xs (vregInsert acc x) (vregInsert_keysNodup acc x h)

theorem findVRegDef_of_mem :
    ∀ (m : List VReg2SUnit), keysNodup m → ∀ (v : Nat) (x : VReg2SUnit), x ∈ m →
      x.getSparseSetKey = virtReg2Index v → findVRegDef m v = some x
  | [], _, v, x, hx => by cases hx
  | y :: rest, hn, v, x, hx => by
    intro hk
    obtain ⟨hy, hrest⟩ := List.nodup_cons.mp hn
    rcases List.mem_cons.mp hx with rfl | hx'
    · rw [findVRegDef, List.find?_cons]
      simp [hk]
    · have hyk : y.getSparseSetKey ≠ virtReg2Index v := by
        intro hyk
        apply hy
        rw [hyk, ← hk]
        exact List.mem_map_of_mem VReg2SUnit.getSparseSetKey hx'
      rw [findVRegDef, List.find?_cons]
      have : (decide (y.getSparseSetKey = virtReg2Index v)) = false := by
        simp [hyk]
      rw [this]
      exact findVRegDef_of_mem rest hrest v x hx' hk

/-- C6: at every point of the region's backward pass — after any sequence
of recorded defs — the virtual-register def map holds at most one entry
per virtual-register index (its key list has no duplicates), and
`findVRegDef` returns that unique entry when one with the register's index
is present and the end iterator (`none`) otherwise. -/
theorem vregDefs_unique_and_find (xs : List VReg2SUnit) (v : Nat) :
    keysNodup (buildVRegDefs xs) ∧
    (∀ x ∈ buildVRegDefs xs, x.getSparseSetKey = virtReg2Index v →
      findVRegDef (buildVRegDefs xs) v = some x) ∧
    ((∀ x ∈ buildVRegDefs xs, x.getSparseSetKey ≠ virtReg2Index v) →
      findVRegDef (buildVRegDefs xs) v = none) := by
  have hn : keysNodup (buildVRegDefs xs) :=
    buildVRegDefs_go_keysNodup xs [] (by simp [keysNodup])
  refine ⟨hn, ?_, ?_⟩
  · exact fun x hx hk => findVRegDef_of_mem (buildVRegDefs xs) hn v x hx hk
  · intro hall
    rw [findVRegDef]
    rw [List.find?_eq_none]
    intro x hx
    simpa using hall x hx

/-- Witness for C6: recording two defs of virtual register 5 leaves a
single entry (the most recent, node 2), found by `findVRegDef 5`; looking
up the unrecorded register 7 returns the end iterator. -/
theorem vregDefs_unique_and_find_witness :
    keysNodup (buildVRegDefs [⟨5, 1⟩, ⟨5, 2⟩]) ∧
    findVRegDef (buildVRegDefs [⟨5, 1⟩, ⟨5, 2⟩]) 5 = some ⟨5, 2⟩ ∧
    findVRegDef (buildVRegDefs [⟨5, 1⟩, ⟨5, 2⟩]) 7 = none :=
  ⟨(vregDefs_unique_and_find [⟨5, 1⟩, ⟨5, 2⟩] 5).1,
   (vregDefs_unique_and_find [⟨5, 1⟩, ⟨5, 2⟩] 5).2.1 ⟨5, 2⟩ (by decide) (by decide),
   (vregDefs_unique_and_find [⟨5, 1⟩, ⟨5, 2⟩] 7).2.2 (by decide)⟩

/-!
`ScheduleDAGInstrs::BuildSchedGraph` is only declared in the sampled header;
its body lives outside the sampled sources. It is modelled from the spec
(§4.3): one backward pass over the region — node `i` wraps the i-th
instruction in program order and the pass runs from the highest index down
to 0 — wiring data (RAW), anti (WAR) and output (WAW) edges through
per-register def/use trackers, conservative order edges for
unknown-address memory operations filtered by the alias oracle, and order
edges that keep every node on the correct side of a scheduling barrier.
Every edge is directed from the earlier (predecessor) node to the later
(successor) node and self-edges are never added (the source's
`DefSU != SU` / `UseSU == SU` guards).
-/

/-- One region instruction, as the spec's builder consumes it: its
physical-register defs and uses, whether it is a full scheduling barrier,
and its unknown-address memory behaviour. -/
structure SpecInstr where
  rdefs : List Nat
  ruses : List Nat
  isBarrier : Bool
  mayLoad : Bool
  mayStore : Bool

/-- The builder's working state during the backward pass. Nodes are named
by their instruction's program-order index. -/
structure BuildState where
  created : List Nat
  defsMap : List (Nat × List Nat)
  usesMap : List (Nat × List Nat)
  pendingLoads : List Nat
  unknownStore : Option Nat
  latestBarrier : Option Nat
  edges : List (Nat × Nat)

/-- Tracker lookup: the node list currently recorded for register `r`. -/
def alGet (m : List (Nat × List Nat)) (r : Nat) : List Nat :=
  ((m.find? (fun p => p.1 = r)).map Prod.snd).getD []

/-- Tracker update: replace the node list recorded for register `r`. -/
def alSet (m : List (Nat × List Nat)) (r : Nat) (l : List Nat) :
    List (Nat × List Nat) :=
  (r, l) :: m.filter (fun p => p.1 ≠ r)

/-- Add one edge from node `i` to every target node except `i` itself. -/
def addEdgesFrom (i : Nat) (targets : List Nat) (es : List (Nat × Nat)) :
    List (Nat × Nat) :=
  (targets.filter (fun j => j ≠ i)).map (fun j => (i, j)) ++ es

/-- Spec §4.3 step 4: a physical-register use adds a data edge to every
recorded def of the register and records this node as a use. -/
def processUse (i : Nat) (st : BuildState) (r : Nat) : BuildState :=
  { st with
    edges := addEdgesFrom i (alGet st.defsMap r) st.edges,
    usesMap := alSet st.usesMap r (alGet st.usesMap r ++ [i]) }

/-- Spec §4.3 step 3: a physical-register def adds an output edge to every
recorded def and an anti edge to every recorded use of the register, then
resets the register's entries to just this node. -/
def processDef (i : Nat) (st : BuildState) (r : Nat) : BuildState :=
  { st with
    edges := addEdgesFrom i (alGet st.defsMap r ++ alGet st.usesMap r) st.edges,
    defsMap := alSet st.defsMap r [i],
    usesMap := alSet st.usesMap r [] }

/-- Spec §4.3 step 6: an unknown-address store gets order edges to all
pending loads and the nearest unknown store (except pairs the alias oracle
proves disjoint) and resets the pending-load list; an unknown-address load
gets an order edge to the nearest unknown store and joins the pending
loads. -/
def processMem (oracle : Nat → Nat → Bool) (i : Nat) (mi : SpecInstr)
    (st : BuildState) : BuildState :=
  if mi.mayStore then
    { st with
      edges := addEdgesFrom i
        ((st.pendingLoads ++ st.unknownStore.toList).filter (oracle i)) st.edges,
      pendingLoads := [],
      unknownStore := some i }
  else if mi.mayLoad then
    { st with
      edges := addEdgesFrom i (st.unknownStore.toList.filter (oracle i)) st.edges,
      pendingLoads := i :: st.pendingLoads }
  else st

/-- The non-barrier part of one backward-pass step: wire the instruction's
uses, then its defs, then its memory behaviour, and record the node as
created. -/
def processBody (oracle : Nat → Nat → Bool) (i : Nat) (mi : SpecInstr)
    (st : BuildState) : BuildState :=
  let s2 := mi.ruses.foldl (processUse i) st
  let s3 := mi.rdefs.foldl (processDef i) s2
  let s4 := processMem oracle i mi s3
  { s4 with created := i :: s4.created }

/-- Processing one instruction of the backward pass: a barrier is ordered
against every node already created and resets every tracker (spec §4.3
step 7); any other instruction is first ordered against the barrier most
recently passed, then wires its uses, defs and memory behaviour. -/
def processInstr (oracle : Nat → Nat → Bool) (i : Nat) (mi : SpecInstr)
    (s : BuildState) : BuildState :=
  if mi.isBarrier then
    { created := i :: s.created,
      defsMap := [],
      usesMap := [],
      pendingLoads := [],
      unknownStore := none,
      latestBarrier := some i,
      edges := addEdgesFrom i s.created s.edges }
  else
    match s.latestBarrier with
    | some b => processBody oracle i mi { s with edges := addEdgesFrom i [b] s.edges }
    | none => processBody oracle i mi s

/-- The empty builder state at the start of a region. -/
def initState : BuildState := ⟨[], [], [], [], none, none, []⟩

/-- The backward pass: process instructions `n-1, n-2, …, 0`. -/
def buildFrom (oracle : Nat → Nat → Bool) (insts : List SpecInstr) :
    Nat → BuildState → BuildState
  | 0, s => s
  | n + 1, s =>
    buildFrom oracle insts n
      (processInstr oracle n (insts.getD n ⟨[], [], false, false, false⟩) s)

/-- Modelled from the spec: `BuildSchedGraph` — build the dependency graph
of a region by the single backward pass. -/
def BuildSchedGraph (oracle : Nat → Nat → Bool) (insts : List SpecInstr) :
    BuildState :=
  buildFrom oracle insts insts.length initState

/-- Every element of the list is at least `k`. -/
def listGE (l : List Nat) (k : Nat) : Prop := ∀ j ∈ l, k ≤ j

/-- Every node recorded in the tracker is at least `k`. -/
def alGE (m : List (Nat × List Nat)) (k : Nat) : Prop :=
  ∀ p ∈ m, ∀ j ∈ p.2, k ≤ j

/-- The optional node, when present, is at least `k`. -/
def optGE (o : Option Nat) (k : Nat) : Prop := ∀ j ∈ o, k ≤ j

/-- Every edge runs from a strictly smaller to a strictly larger index. -/
def edgesInc (es : List (Nat × Nat)) : Prop := ∀ e ∈ es, e.1 < e.2

/-- The backward-pass invariant before processing instruction `k - 1`:
every node recorded anywhere in the state has index at least `k` (it was
created by a program-later instruction), and all edges run forward. -/
def stInv (s : BuildState) (k : Nat) : Prop :=
  listGE s.created k ∧ alGE s.defsMap k ∧ alGE s.usesMap k ∧
    listGE s.pendingLoads k ∧ optGE s.unknownStore k ∧
    optGE s.latestBarrier k ∧ edgesInc s.edges

theorem alGet_GE {m : List (Nat × List Nat)} {k r : Nat} (h : alGE m k) :
    listGE (alGet m r) k := by
  intro j hj
  unfold alGet at hj
  cases hf : m.find? (fun p => p.1 = r) with
  | none =>
    rw [hf] at hj
    cases hj
  | some p =>
    rw [hf] at hj
    simp only [Option.map_some', Option.getD_some] at hj
    exact h p (List.mem_of_find?_eq_some hf) j hj

theorem alSet_GE {m : List (Nat × List Nat)} {k r : Nat} {l : List Nat}
    (hm : alGE m k) (hl : listGE l k) : alGE (alSet m r l) k := by
  intro p hp j hj
  rcases List.mem_cons.mp hp with rfl | hp'
  · exact hl j hj
  · exact hm p (List.mem_of_mem_filter hp') j hj

theorem addEdgesFrom_inc {i : Nat} {ts : List Nat} {es : List (Nat × Nat)}
    (hts : listGE ts i) (hes : edgesInc es) : edgesInc (addEdgesFrom i ts es) := by
  intro e he
  unfold addEdgesFrom at he
  rcases List.mem_append.mp he with he | he
  · obtain ⟨j, hj, rfl⟩ := List.mem_map.mp he
    obtain ⟨hjm, hjne⟩ := List.mem_filter.mp hj
    have hge := hts j hjm
    simp only [decide_eq_true_eq] at hjne
    exact lt_of_le_of_ne hge (Ne.symm hjne)
  · exact hes e he

theorem processUse_inv {i : Nat} {st : BuildState} {r : Nat}
    (h : stInv st i) : stInv (processUse i st r) i := by
  obtain ⟨h1, h2, h3, h4, h5, h6, h7⟩ := h
  refine ⟨h1, h2, ?_, h4, h5, h6, ?_⟩
  · refine alSet_GE h3 ?_
    intro j hj
    rcases List.mem_append.mp hj with hj | hj
    · exact alGet_GE h3 j hj
    · simp only [List.mem_singleton] at hj
      omega
  · exact addEdgesFrom_inc (alGet_GE h2) h7

theorem processDef_inv {i : Nat} {st : BuildState} {r : Nat}
    (h : stInv st i) : stInv (processDef i st r) i := by
  obtain ⟨h1, h2, h3, h4, h5, h6, h7⟩ := h
  refine ⟨h1, ?_, ?_, h4, h5, h6, ?_⟩
  · refine alSet_GE h2 ?_
    intro j hj
    simp only [List.mem_singleton] at hj
    omega
  · refine alSet_GE h3 ?_
    intro j hj
    cases hj
  · refine addEdgesFrom_inc ?_ h7
    intro j hj
    rcases List.mem_append.mp hj with hj | hj
    · exact alGet_GE h2 j hj
    · exact alGet_GE h3 j hj

theorem processMem_inv {oracle : Nat → Nat → Bool} {i : Nat} {mi : SpecInstr}
    {st : BuildState} (h : stInv st i) : stInv (processMem oracle i mi st) i := by
  obtain ⟨h1, h2, h3, h4, h5, h6, h7⟩ := h
  by_cases hs : mi.mayStore
  · rw [processMem, if_pos hs]
    refine ⟨h1, h2, h3, ?_, ?_, h6, ?_⟩
    · intro j hj
      cases hj
    · intro j hj
      simp only [Option.mem_some_iff] at hj
      omega
    · refine addEdgesFrom_inc ?_ h7
      intro j hj
      rcases List.mem_append.mp (List.mem_of_mem_filter hj) with hj' | hj'
      · exact h4 j hj'
      · cases ho : st.unknownStore with
        | none => rw [ho] at hj'; cases hj'
        | some b =>
          rw [ho] at hj'
          simp only [Option.toList_some, List.mem_singleton] at hj'
          subst hj'
          exact h5 j (by rw [ho]; rfl)
  · by_cases hl : mi.mayLoad
    · rw [processMem, if_neg hs, if_pos hl]
      refine ⟨h1, h2, h3, ?_, h5, h6, ?_⟩
      · intro j hj
        rcases List.mem_cons.mp hj with rfl | hj'
        · omega
        · exact h4 j hj'
      · refine addEdgesFrom_inc ?_ h7
        intro j hj
        have hj' := List.mem_of_mem_filter hj
        cases ho : st.unknownStore with
        | none => rw [ho] at hj'; cases hj'
        | some b =>
          rw [ho] at hj'
          simp only [Option.toList_some, List.mem_singleton] at hj'
          subst hj'
          exact h5 j (by rw [ho]; rfl)
    · rw [processMem, if_neg hs, if_neg hl]
      exact ⟨h1, h2, h3, h4, h5, h6, h7⟩

theorem foldl_processUse_inv (i : Nat) :
    ∀ (l : List Nat) (st : BuildState), stInv st i →
      stInv (l.foldl (processUse i) st) i
  | [], _, h => h
  | r :: l, st, h => by
    rw [List.foldl_cons]
    exact foldl_processUse_inv i l (processUse i st r) (processUse_inv h)

theorem foldl_processDef_inv (i : Nat) :
    ∀ (l : List Nat) (st : BuildState), stInv st i →
      stInv (l.foldl (processDef i) st) i
  | [], _, h => h
  | r :: l, st, h => by
    rw [List.foldl_cons]
    exact foldl_processDef_inv i l (processDef i st r) (processDef_inv h)

theorem processBody_inv {oracle : Nat → Nat → Bool} {i : Nat} {mi : SpecInstr}
    {st : BuildState} (h : stInv st i) : stInv (processBody oracle i mi st) i := by
  have h2 := foldl_processUse_inv i mi.ruses st h
  have h3 := foldl_processDef_inv i mi.rdefs _ h2
  have h4 : stInv (processMem oracle i mi (mi.rdefs.foldl (processDef i)
      (mi.ruses.foldl (processUse i) st))) i := processMem_inv h3
  obtain ⟨g1, g2, g3, g4, g5, g6, g7⟩ := h4
  refine ⟨?_, g2, g3, g4, g5, g6, g7⟩
  intro j hj
  rcases List.mem_cons.mp hj with rfl | hj'
  · omega
  · exact g1 j hj'

theorem processInstr_inv {oracle : Nat → Nat → Bool} {i : Nat} {mi : SpecInstr}
    {s : BuildState} (h : stInv s i) : stInv (processInstr oracle i mi s) i := by
  obtain ⟨h1, h2, h3, h4, h5, h6, h7⟩ := h
  by_cases hb : mi.isBarrier
  · rw [processInstr, if_pos hb]
    refine ⟨?_, ?_, ?_, ?_, ?_, ?_, ?_⟩
    · intro j hj
      rcases List.mem_cons.mp hj with rfl | hj'
      · omega
      · exact h1 j hj'
    · intro p hp
      cases hp
    · intro p hp
      cases hp
    · intro j hj
      cases hj
    · intro j hj
      cases hj
    · intro j hj
      simp only [Option.mem_some_iff] at hj
      omega
    · exact addEdgesFrom_inc h1 h7
  · rw [processInstr, if_neg hb]
    cases hlb : s.latestBarrier with
    | none => exact processBody_inv ⟨h1, h2, h3, h4, h5, h6, h7⟩
    | some b =>
      refine processBody_inv ⟨h1, h2, h3, h4, h5, ?_, ?_⟩
      · intro j hj
        have hjb : b = j := by simpa using hj
        subst hjb
        exact h6 b (by rw [hlb]; rfl)
      · refine addEdgesFrom_inc ?_ h7
        intro j hj
        simp only [List.mem_singleton] at hj
        subst hj
        exact h6 j (by rw [hlb]; rfl)

theorem stInv_mono {s : BuildState} {k : Nat} (h : stInv s (k + 1)) : stInv s k := by
  obtain ⟨h1, h2, h3, h4, h5, h6, h7⟩ := h
  exact ⟨fun j hj => Nat.le_of_succ_le (h1 j hj),
    fun p hp j hj => Nat.le_of_succ_le (h2 p hp j hj),
    fun p hp j hj => Nat.le_of_succ_le (h3 p hp j hj),
    fun j hj => Nat.le_of_succ_le (h4 j hj),
    fun j hj => Nat.le_of_succ_le (h5 j hj),
    fun j hj => Nat.le_of_succ_le (h6 j hj), h7⟩

theorem buildFrom_edgesInc (oracle : Nat → Nat → Bool) (insts : List SpecInstr) :
    ∀ (n : Nat) (s : BuildState), stInv s n →
      edgesInc (buildFrom oracle insts n s).edges
  | 0, _, h => h.2.2.2.2.2.2
  | n + 1, _, h =>
    buildFrom_edgesInc oracle insts n _ (processInstr_inv (stInv_mono h))

theorem buildSchedGraph_edgesInc (oracle : Nat → Nat → Bool)
    (insts : List SpecInstr) : edgesInc (BuildSchedGraph oracle insts).edges := by
  refine buildFrom_edgesInc oracle insts insts.length initState ?_
  refine ⟨?_, ?_, ?_, ?_, ?_, ?_, ?_⟩ <;> exact fun x hx => by cases hx

/-- A list of nodes is a path of the built graph when every consecutive
pair is one of its edges. -/
def chainOK (es : List (Nat × Nat)) : List Nat → Prop
  | [] => True
  | [_] => True
  | a :: b :: rest => (a, b) ∈ es ∧ chainOK es (b :: rest)

theorem chain_head_lt_last {es : List (Nat × Nat)} (hes : edgesInc es) :
    ∀ (p : List Nat) (a : Nat), chainOK es (a :: p) →
      ∀ b, (a :: p).getLast? = some b → a ≤ b ∧ (p ≠ [] → a < b)
  | [], a, _, b, hb => by
    simp only [List.getLast?_singleton, Option.some.injEq] at hb
    exact ⟨le_of_eq hb, fun hne => absurd rfl hne⟩
  | c :: p', a, hch, b, hb => by
    have hch2 : (a, c) ∈ es ∧ chainOK es (c :: p') := hch
    have hlast : (c :: p').getLast? = some b := by
      rw [← hb, List.getLast?_cons_cons]
    obtain ⟨hcb, -⟩ := chain_head_lt_last hes p' c hch2.2 b hlast
    have hac : a < c := hes (a, c) hch2.1
    exact ⟨le_of_lt (lt_of_lt_of_le hac hcb), fun _ => lt_of_lt_of_le hac hcb⟩

/-- C2: for every scheduling region (instruction list) and every alias
oracle, the dependency graph built by `BuildSchedGraph` — modelled from the
spec, since only the declaration is among the sampled sources — has no
directed cycle: no path of length at least one through its edges returns
to its starting node. -/
theorem buildSchedGraph_acyclic (oracle : Nat → Nat → Bool)
    (insts : List SpecInstr) (a : Nat) (p : List Nat)
    (hchain : chainOK (BuildSchedGraph oracle insts).edges (a :: p))
    (hp : p ≠ []) :
    (a :: p).getLast? ≠ some a := by
  intro hlast
  have h := chain_head_lt_last (buildSchedGraph_edgesInc oracle insts) p a hchain a hlast
  exact absurd (h.2 hp) (lt_irrefl a)

/-- Witness for C2: the two-instruction region `def r1; use r1` produces
the data edge `(0, 1)`, so the path `0, 1` satisfies the hypotheses of the
acyclicity theorem and indeed does not return to node 0. -/
theorem buildSchedGraph_acyclic_witness : ([0, 1] : List Nat).getLast? ≠ some 0 :=
  buildSchedGraph_acyclic (fun _ _ => true)
    [⟨[1], [], false, false, false⟩, ⟨[], [1], false, false, false⟩] 0 [1]
    ⟨by decide, trivial⟩ (by decide)
